import Mathlib

/-!
Verification of the dynarr dynamic-array library (src/dynarr.h).

The container is a contiguous buffer with a metadata header holding
`capa` (capacity in element slots), `elem` (element byte width),
`offs` (buffer index of the first logical element) and `size`
(number of live logical elements).  We embed the element buffer as a
`List α` whose length equals the capacity; the byte-level `memmove`,
`memcpy`, `memset` and `realloc` calls become the list primitives
below, acting on whole element slots.  Machine `int` fields are
embedded as `Int` (the claims under study do not involve overflow).
Reallocation is modelled by a boolean oracle `ok`: `ok = false` makes
the allocation primitive fail, and fallible operations return their C
result code paired with the (possibly mutated) container state.
-/

/-- The dynarr header (`struct dynarr`) together with the element
buffer that follows it.  `buf` holds one entry per reserved slot. -/
structure Dynarr (α : Type) where
  capa : Int
  elem : Int
  offs : Int
  size : Int
  buf : List α
deriving DecidableEq, Repr

/-- The `n` consecutive slots of `buf` starting at position `p`. -/
def bufSeg (buf : List α) (p n : Nat) : List α :=
  (buf.drop p).take n

/-- Write value `v` into slot `p` (`A[p] = v`). -/
def writeAt (buf : List α) (p : Nat) (v : α) : List α :=
  buf.take p ++ v :: buf.drop (p + 1)

/-- `memmove`/`memcpy` of `n` slots from position `p` down to position 0;
slots from `n` onward keep their old contents. -/
def moveTo0 (buf : List α) (p n : Nat) : List α :=
  bufSeg buf p n ++ buf.drop n

/-- `memmove` of `n` slots from position `p` up to position `p + 1`
(used by `DYNARR_INSERT`); slot `p` and slots from `p + 1 + n` onward
keep their old contents. -/
def shiftUp1 (buf : List α) (p n : Nat) : List α :=
  buf.take (p + 1) ++ bufSeg buf p n ++ buf.drop (p + 1 + n)

/-- `memmove` of `n` slots from position `p + 1` down to position `p`
(used by `DYNARR_REMOVE`); slots from `p + n` onward keep their old
contents. -/
def shiftDown1 (buf : List α) (p n : Nat) : List α :=
  buf.take p ++ bufSeg buf (p + 1) n ++ buf.drop (p + n)

/-- `memset(..., 0, ...)` over `n` slots starting at position `p`,
writing the all-zero-bytes element `z`. -/
def fillZero (buf : List α) (p n : Nat) (z : α) : List α :=
  buf.take p ++ List.replicate n z ++ buf.drop (p + n)

/-- `realloc` of the buffer to `n` slots: the common prefix is
preserved and any newly reserved slots hold indeterminate bytes `j`. -/
def reallocBuf (buf : List α) (n : Nat) (j : α) : List α :=
  buf.take n ++ List.replicate (n - buf.length) j

/-- The logical contents of the container: logical element `i`
(`0 ≤ i < size`) lives in buffer slot `offs + i`. -/
def logical (a : Dynarr α) : List α :=
  bufSeg a.buf a.offs.toNat a.size.toNat

/-- Well-formedness of a container state: the metadata is in range and
the buffer really has one entry per reserved slot. -/
def WF (a : Dynarr α) : Prop :=
  0 ≤ a.offs ∧ 0 ≤ a.size ∧ a.offs + a.size ≤ a.capa ∧
    a.buf.length = a.capa.toNat

instance (a : Dynarr α) : Decidable (WF a) := by
  unfold WF; infer_instance

/-- `dynarrNew`: fresh container with capacity 1 for elements of byte
width `elem`; `calloc` zero-fills the single slot with `z`. -/
def dynarrNew (elem : Int) (z : α) : Dynarr α :=
  { capa := 1, elem := elem, offs := 0, size := 0, buf := [z] }

/-- `dynarrGrow`: make room for one append.  At full occupancy
(`offs + size == capa`) either reclaim the leading slack by an offset
reset (when `offs ≥ size`) or double the capacity by reallocation.
Returns the C result code (0 ok, -1 allocation failure) and the
resulting state. -/
def dynarrGrow [Inhabited α] (a : Dynarr α) (ok : Bool) : Int × Dynarr α :=
  if a.offs + a.size = a.capa then
    if a.size ≤ a.offs then
      (0, { a with buf := moveTo0 a.buf a.offs.toNat a.size.toNat, offs := 0 })
    else
      if ok then
        (0, { a with buf := reallocBuf a.buf (a.capa * 2).toNat default,
                     capa := a.capa * 2 })
      else (-1, a)
  else (0, a)

/-- `DYNARR_PUSH`: grow, then place the value at slot `offs + size` and
post-increment `size`.  Returns the index used, or -1 on failure. -/
def dynarrPush [Inhabited α] (a : Dynarr α) (v : α) (ok : Bool) :
    Int × Dynarr α :=
  let g := dynarrGrow a ok
  if g.1 = 0 then
    (g.2.size, { g.2 with buf := writeAt g.2.buf (g.2.offs + g.2.size).toNat v,
                          size := g.2.size + 1 })
  else (-1, g.2)

/-- `DYNARR_POP`: decrement `size` and return the former last element.
Precondition (asserted in C): the container is not empty. -/
def dynarrPop [Inhabited α] (a : Dynarr α) : α × Dynarr α :=
  (a.buf.getD (a.offs + (a.size - 1)).toNat default, { a with size := a.size - 1 })

/-- `DYNARR_DEQUEUE`: decrement `size`, return the first element and
post-increment `offs`.  Precondition (asserted in C): not empty. -/
def dynarrDequeue [Inhabited α] (a : Dynarr α) : α × Dynarr α :=
  (a.buf.getD a.offs.toNat default, { a with size := a.size - 1, offs := a.offs + 1 })

/-- `DYNARR_CLEAR`: reset `offs` and `size` to 0, keeping storage. -/
def dynarrClear (a : Dynarr α) : Dynarr α :=
  { a with offs := 0, size := 0 }

/-- `DYNARR_INSERT`: grow, shift slots `[offs+i, offs+size)` up by one,
write `v` at slot `offs + i`, increment `size`.  Returns `i`, or -1 on
allocation failure.  Precondition (asserted in C): `0 ≤ i < size`. -/
def dynarrInsert [Inhabited α] (a : Dynarr α) (i : Int) (v : α) (ok : Bool) :
    Int × Dynarr α :=
  let g := dynarrGrow a ok
  if g.1 = 0 then
    (i, { g.2 with
          buf := writeAt (shiftUp1 g.2.buf (g.2.offs + i).toNat (g.2.size - i).toNat)
                   (g.2.offs + i).toNat v,
          size := g.2.size + 1 })
  else (-1, g.2)

/-- `DYNARR_SHOVE`: push a copy of the current element at index `i`
(read after the grow, from the possibly compacted buffer), then
overwrite slot `offs + i` with `v`.  Returns `i`, or -1 on failure. -/
def dynarrShove [Inhabited α] (a : Dynarr α) (i : Int) (v : α) (ok : Bool) :
    Int × Dynarr α :=
  let g := dynarrGrow a ok
  if g.1 = 0 then
    let x := g.2.buf.getD (g.2.offs + i).toNat default
    let b := { g.2 with buf := writeAt g.2.buf (g.2.offs + g.2.size).toNat x,
                        size := g.2.size + 1 }
    (i, { b with buf := writeAt b.buf (b.offs + i).toNat v })
  else (-1, g.2)

/-- `DYNARR_REMOVE`: shift `size - 1 - i` slots down over slot
`offs + i` and decrement `size`.  Precondition: `0 ≤ i < size`. -/
def dynarrRemove (a : Dynarr α) (i : Int) : Dynarr α :=
  { a with buf := shiftDown1 a.buf (a.offs + i).toNat (a.size - 1 - i).toNat,
           size := a.size - 1 }

/-- `DYNARR_DITCH`: overwrite slot `offs + i` with the popped last
element.  Precondition: `0 ≤ i < size`. -/
def dynarrDitch [Inhabited α] (a : Dynarr α) (i : Int) : Dynarr α :=
  let p := dynarrPop a
  { p.2 with buf := writeAt p.2.buf (p.2.offs + i).toNat p.1 }

/-- `dynarrResize`: shrink truncates (clamping negative requests to 0
and resetting `offs` when the container becomes empty); growth first
compacts when `offs + s` exceeds the capacity, reallocates to exactly
`s` when still over capacity, zero-fills the new slots with `z`, and
sets `size := s`.  Returns the new size, or -1 on allocation failure. -/
def dynarrResize [Inhabited α] (a : Dynarr α) (s : Int) (z : α) (ok : Bool) :
    Int × Dynarr α :=
  if s < a.size then
    let a1 := { a with size := if s < 0 then 0 else s }
    let a2 := if a1.size = 0 then { a1 with offs := 0 } else a1
    (a2.size, a2)
  else if a.size < s then
    let a1 := if a.capa < a.offs + s ∧ a.offs ≠ 0 then
        { a with buf := moveTo0 a.buf a.offs.toNat a.size.toNat, offs := 0 }
      else a
    if a.capa < a.offs + s ∧ a1.capa < s then
      if ok then
        let a2 := { a1 with buf := reallocBuf a1.buf s.toNat default, capa := s }
        (s, { a2 with buf := fillZero a2.buf (a2.offs + a2.size).toNat
                               (s - a2.size).toNat z,
                      size := s })
      else (-1, a1)
    else
      (s, { a1 with buf := fillZero a1.buf (a1.offs + a1.size).toNat
                             (s - a1.size).toNat z,
                    size := s })
  else (a.size, a)

/-- `dynarrCapacity`: clamp the request up to `size`, always compact a
nonzero offset, then reallocate when the clamped request differs from
the current capacity.  Returns the resulting capacity, or -1. -/
def dynarrCapacity [Inhabited α] (a : Dynarr α) (c : Int) (ok : Bool) :
    Int × Dynarr α :=
  let c1 := if c < a.size then a.size else c
  let a1 := if a.offs ≠ 0 then
      { a with buf := moveTo0 a.buf a.offs.toNat a.size.toNat, offs := 0 }
    else a
  if c1 ≠ a1.capa then
    if ok then
      let a2 := { a1 with buf := reallocBuf a1.buf c1.toNat default, capa := c1 }
      (a2.capa, a2)
    else (-1, a1)
  else (a1.capa, a1)

/-- Loop body of `dynarrFindLinear`: scan the remaining logical
elements, `i` being the index of the first of them; `memcmp` equality
of the fixed-width element bytes is equality on `α`. -/
def findLinAux [DecidableEq α] (k : α) : List α → Int → Int
  | [], _ => -1
  | y :: ys, i => if y = k then i else findLinAux k ys (i + 1)

/-- `dynarrFindLinear`: first logical index whose element equals the
key, else -1. -/
def dynarrFindLinear [DecidableEq α] (a : Dynarr α) (k : α) : Int :=
  findLinAux k (logical a) 0

/-- Inner loop of `dynarrSortInsert`, on the reversed already-sorted
prefix (head = element nearest the new element `x`): repeatedly swap
`x` with its predecessor while the predecessor compares greater. -/
def bubR (comp : α → α → Int) (x : α) : List α → List α
  | [] => [x]
  | y :: ys => if 0 < comp y x then y :: bubR comp x ys else x :: y :: ys

/-- The whole `dynarrSortInsert` loop nest on a list of elements,
keeping the sorted prefix reversed; the final reverse restores buffer
order. -/
def insSortC (comp : α → α → Int) (l : List α) : List α :=
  (l.foldl (fun acc x => bubR comp x acc) []).reverse

/-- Splice a bufSeg over the slots starting at position `p`. -/
def writeSeg (buf : List α) (p : Nat) (seg : List α) : List α :=
  buf.take p ++ seg ++ buf.drop (p + seg.length)

/-- `dynarrSortInsert`: in-place insertion sort of the logical
elements, slots outside `[offs, offs + size)` untouched. -/
def dynarrSortInsert (a : Dynarr α) (comp : α → α → Int) : Dynarr α :=
  { a with buf := writeSeg a.buf a.offs.toNat (insSortC comp (logical a)) }

/-- A comparator describing a consistent total order: the sign flips
under argument swap and non-positive comparisons are transitive. -/
def TotalComp (comp : α → α → Int) : Prop :=
  (∀ a b, 0 < comp a b ↔ comp b a < 0) ∧
    (∀ a b c, comp a b ≤ 0 → comp b c ≤ 0 → comp a c ≤ 0)

instance (comp : Bool → Bool → Int) : Decidable (TotalComp comp) := by
  unfold TotalComp; infer_instance

/-! ### Buffer primitive lemmas -/

theorem bufSeg_length {l : List α} {p n : Nat} (h : p + n ≤ l.length) :
    (bufSeg l p n).length = n := by
  simp only [bufSeg, List.length_take, List.length_drop]
  omega

theorem bufSeg_split (l : List α) (p m k : Nat) :
    bufSeg l p (m + k) = bufSeg l p m ++ bufSeg l (p + m) k := by
  simp only [bufSeg, List.take_add, ← List.drop_drop]

theorem bufSeg_take {l : List α} {p n q : Nat} (h : p + n ≤ q) :
    bufSeg (l.take q) p n = bufSeg l p n := by
  simp only [bufSeg, List.drop_take, List.take_take]
  congr 1
  omega

theorem bufSeg_append_left {l₁ l₂ : List α} {p n : Nat} (h : p + n ≤ l₁.length) :
    bufSeg (l₁ ++ l₂) p n = bufSeg l₁ p n := by
  simp only [bufSeg, List.drop_append_of_le_length (by omega : p ≤ l₁.length)]
  rw [List.take_append_of_le_length]
  simp only [List.length_drop]
  omega

theorem bufSeg_getD {l : List α} {p n j : Nat} (d : α) (h : p + n ≤ l.length)
    (hj : j < n) : (bufSeg l p n).getD j d = l.getD (p + j) d := by
  simp [bufSeg, List.getD_eq_getElem?_getD, List.getElem?_take, List.getElem?_drop, hj]

theorem moveTo0_length {l : List α} {p n : Nat} (h : p + n ≤ l.length) :
    (moveTo0 l p n).length = l.length := by
  simp only [moveTo0, List.length_append, bufSeg_length h, List.length_drop]
  omega

theorem bufSeg_moveTo0 {l : List α} {p n : Nat} (h : p + n ≤ l.length) :
    bufSeg (moveTo0 l p n) 0 n = bufSeg l p n := by
  have hlen : ((l.drop p).take n).length = n := by
    simp only [List.length_take, List.length_drop]
    omega
  simp only [moveTo0, bufSeg, List.drop_zero]
  rw [List.take_append_of_le_length (le_of_eq hlen.symm), List.take_take, min_self]

theorem writeAt_length {l : List α} {p : Nat} (v : α) (h : p < l.length) :
    (writeAt l p v).length = l.length := by
  simp only [writeAt, List.length_append, List.length_take, List.length_cons,
    List.length_drop]
  omega

theorem reallocBuf_length (l : List α) (n : Nat) (j : α) :
    (reallocBuf l n j).length = n := by
  simp only [reallocBuf, List.length_append, List.length_take, List.length_replicate]
  omega

theorem bufSeg_reallocBuf {l : List α} {p k n : Nat} (j : α)
    (h : p + k ≤ l.length) (h2 : p + k ≤ n) :
    bufSeg (reallocBuf l n j) p k = bufSeg l p k := by
  rw [reallocBuf, bufSeg_append_left, bufSeg_take h2]
  simp only [List.length_take]
  omega

theorem fillZero_length {l : List α} {p n : Nat} (z : α) (h : p + n ≤ l.length) :
    (fillZero l p n z).length = l.length := by
  simp only [fillZero, List.length_append, List.length_take, List.length_replicate,
    List.length_drop]
  omega

theorem writeSeg_length {l m : List α} {p : Nat} (h : p + m.length ≤ l.length) :
    (writeSeg l p m).length = l.length := by
  simp only [writeSeg, List.length_append, List.length_take, List.length_drop]
  omega

theorem bufSeg_writeSeg {l m : List α} {p : Nat} (h : p ≤ l.length) :
    bufSeg (writeSeg l p m) p m.length = m := by
  unfold writeSeg bufSeg
  have hp : p ≤ (l.take p).length := by
    simp only [List.length_take]
    omega
  have ht : (l.take p).drop p = [] := by
    apply List.drop_of_length_le
    simp only [List.length_take]
    omega
  rw [List.append_assoc, List.drop_append_of_le_length hp, ht, List.nil_append,
    List.take_append_of_le_length le_rfl, List.take_of_length_le le_rfl]

/-! ### Behaviour of `dynarrGrow` -/

theorem dynarrGrow_spec [Inhabited α] (a : Dynarr α) (ok : Bool) (hWF : WF a) :
    ((dynarrGrow a ok).1 = 0 ∨ ((dynarrGrow a ok).1 = -1 ∧ (dynarrGrow a ok).2 = a)) ∧
      ((dynarrGrow a ok).1 = 0 →
        WF (dynarrGrow a ok).2 ∧
        (dynarrGrow a ok).2.size = a.size ∧
        (dynarrGrow a ok).2.elem = a.elem ∧
        logical (dynarrGrow a ok).2 = logical a ∧
        (1 ≤ a.capa →
          (dynarrGrow a ok).2.offs + (dynarrGrow a ok).2.size <
            (dynarrGrow a ok).2.capa)) := by
  obtain ⟨ho, hs, hc, hl⟩ := hWF
  have hseg : a.offs.toNat + a.size.toNat ≤ a.buf.length := by
    rw [hl]; omega
  by_cases hfull : a.offs + a.size = a.capa
  · by_cases hcase : a.size ≤ a.offs
    · -- offset-reset compaction
      have hg : dynarrGrow a ok =
          (0, { a with buf := moveTo0 a.buf a.offs.toNat a.size.toNat, offs := 0 }) := by
        unfold dynarrGrow
        rw [if_pos hfull, if_pos hcase]
      rw [hg]
      refine ⟨Or.inl rfl, fun _ => ⟨⟨le_rfl, hs, by simp; omega, ?_⟩, rfl, rfl, ?_, ?_⟩⟩
      · show (moveTo0 a.buf a.offs.toNat a.size.toNat).length = a.capa.toNat
        rw [moveTo0_length hseg, hl]
      · show bufSeg (moveTo0 a.buf a.offs.toNat a.size.toNat) (0:Int).toNat a.size.toNat =
          logical a
        rw [Int.toNat_zero]
        exact bufSeg_moveTo0 hseg
      · intro hc1
        show (0:Int) + a.size < a.capa
        omega
    · -- reallocation branch
      cases ok with
      | false =>
        have hg : dynarrGrow a false = (-1, a) := by
          unfold dynarrGrow
          rw [if_pos hfull, if_neg hcase, if_neg (by simp)]
        rw [hg]
        exact ⟨Or.inr ⟨rfl, rfl⟩,
          fun h => absurd (show (-1 : Int) = 0 from h) (by decide)⟩
      | true =>
        have hg : dynarrGrow a true =
            (0, { a with buf := reallocBuf a.buf (a.capa * 2).toNat default,
                         capa := a.capa * 2 }) := by
          unfold dynarrGrow
          rw [if_pos hfull, if_neg hcase, if_pos rfl]
        rw [hg]
        refine ⟨Or.inl rfl, fun _ => ⟨⟨ho, hs, by simp; omega, ?_⟩, rfl, rfl, ?_, ?_⟩⟩
        · show (reallocBuf a.buf (a.capa * 2).toNat default).length = (a.capa * 2).toNat
          rw [reallocBuf_length]
        · show bufSeg (reallocBuf a.buf (a.capa * 2).toNat default) a.offs.toNat
            a.size.toNat = logical a
          exact bufSeg_reallocBuf _ hseg (by omega)
        · intro hc1
          show a.offs + a.size < a.capa * 2
          omega
  · have hg : dynarrGrow a ok = (0, a) := by
      unfold dynarrGrow
      rw [if_neg hfull]
    rw [hg]
    refine ⟨Or.inl rfl, fun _ => ⟨⟨ho, hs, hc, hl⟩, rfl, rfl, rfl, fun _ => ?_⟩⟩
    show a.offs + a.size < a.capa
    omega

/-! ### Claim theorems -/

/-- C4: at full occupancy (`offs + size = capa`), `dynarrGrow` compacts
without reallocating when `offs ≥ size` (moving the live elements to
buffer position 0 and zeroing the offset, preserving size, capacity
and logical contents, for either allocation oracle), and otherwise
doubles the capacity by a successful reallocation (preserving offset,
size and logical contents); below capacity it changes nothing. -/
theorem grow_cases [Inhabited α] (a : Dynarr α) (hWF : WF a) :
    (a.offs + a.size = a.capa → a.size ≤ a.offs → ∀ ok,
      (dynarrGrow a ok).1 = 0 ∧ (dynarrGrow a ok).2.offs = 0 ∧
      (dynarrGrow a ok).2.size = a.size ∧ (dynarrGrow a ok).2.capa = a.capa ∧
      logical (dynarrGrow a ok).2 = logical a) ∧
    (a.offs + a.size = a.capa → a.offs < a.size →
      (dynarrGrow a true).1 = 0 ∧ (dynarrGrow a true).2.capa = 2 * a.capa ∧
      1 ≤ (dynarrGrow a true).2.capa ∧ (dynarrGrow a true).2.offs = a.offs ∧
      (dynarrGrow a true).2.size = a.size ∧
      logical (dynarrGrow a true).2 = logical a) ∧
    (a.offs + a.size < a.capa → ∀ ok, dynarrGrow a ok = (0, a)) := by
  obtain ⟨ho, hs, hc, hl⟩ := hWF
  have hseg : a.offs.toNat + a.size.toNat ≤ a.buf.length := by
    rw [hl]; omega
  refine ⟨fun hfull hcase ok => ?_, fun hfull hcase => ?_, fun hlt ok => ?_⟩
  · have hg : dynarrGrow a ok =
        (0, { a with buf := moveTo0 a.buf a.offs.toNat a.size.toNat, offs := 0 }) := by
      unfold dynarrGrow
      rw [if_pos hfull, if_pos hcase]
    rw [hg]
    refine ⟨rfl, rfl, rfl, rfl, ?_⟩
    show bufSeg (moveTo0 a.buf a.offs.toNat a.size.toNat) (0:Int).toNat a.size.toNat =
      logical a
    rw [Int.toNat_zero]
    exact bufSeg_moveTo0 hseg
  · have hg : dynarrGrow a true =
        (0, { a with buf := reallocBuf a.buf (a.capa * 2).toNat default,
                     capa := a.capa * 2 }) := by
      unfold dynarrGrow
      rw [if_pos hfull, if_neg (by omega), if_pos rfl]
    rw [hg]
    refine ⟨rfl, by show a.capa * 2 = 2 * a.capa; ring, ?_, rfl, rfl, ?_⟩
    · show 1 ≤ a.capa * 2
      omega
    · show bufSeg (reallocBuf a.buf (a.capa * 2).toNat default) a.offs.toNat
        a.size.toNat = logical a
      exact bufSeg_reallocBuf _ hseg (by omega)
  · unfold dynarrGrow
    rw [if_neg (by omega)]

/-- Witness for C4: a full container with front slack compacts, a full
slackless one doubles, a non-full one is untouched. -/
theorem grow_cases_witness :
    WF ({ capa := 2, elem := 4, offs := 1, size := 1, buf := [7, 9] } : Dynarr Int) ∧
    (dynarrGrow { capa := 2, elem := 4, offs := 1, size := 1, buf := [7, 9] }
        false).2.offs = 0 ∧
    (dynarrGrow ({ capa := 1, elem := 4, offs := 0, size := 1, buf := [7] } : Dynarr Int)
        true).2.capa = 2 := by
  refine ⟨by decide, ?_, ?_⟩
  · exact ((grow_cases { capa := 2, elem := 4, offs := 1, size := 1, buf := [7, 9] }
      (by decide)).1 (by decide) (by decide) false).2.1
  · have h := ((grow_cases ({ capa := 1, elem := 4, offs := 0, size := 1, buf := [7] } :
      Dynarr Int) (by decide)).2.1 (by decide) (by decide)).2.1
    rw [h]
    decide

/-- C9: `dynarrResize` with a negative requested size empties the
container (size 0, offset 0), changes nothing else, never fails for
either allocation oracle, and returns 0. -/
theorem resize_negative [Inhabited α] (a : Dynarr α) (s : Int) (z : α) (ok : Bool)
    (hWF : WF a) (hs : s < 0) :
    dynarrResize a s z ok = (0, { a with size := 0, offs := 0 }) := by
  have h0 : (0 : Int) ≤ a.size := hWF.2.1
  unfold dynarrResize
  rw [if_pos (lt_of_lt_of_le hs h0)]
  simp [hs]

/-- Witness for C9 at a concrete container and request. -/
theorem resize_negative_witness :
    dynarrResize ({ capa := 2, elem := 4, offs := 1, size := 1, buf := [7, 9] } :
        Dynarr Int) (-3) 0 false =
      (0, { capa := 2, elem := 4, offs := 0, size := 0, buf := [7, 9] }) := by
  have h := resize_negative ({ capa := 2, elem := 4, offs := 1, size := 1, buf := [7, 9] } :
    Dynarr Int) (-3) 0 false (by decide) (by decide)
  rw [h]

/-- Counterexample to C2: dequeueing the only element leaves the
container empty with a nonzero offset (the code never resets the
offset in `DYNARR_DEQUEUE`). -/
theorem dequeue_empty_offset_nonzero :
    (dynarrDequeue ({ capa := 1, elem := 4, offs := 0, size := 1, buf := [5] } :
        Dynarr Int)).2.size = 0 ∧
    (dynarrDequeue ({ capa := 1, elem := 4, offs := 0, size := 1, buf := [5] } :
        Dynarr Int)).2.offs ≠ 0 := by
  decide

/-- C2 (amended): on well-formed states, `clear` and `adjustCapacity`
always leave `offs = 0` (`adjustCapacity` compacts unconditionally,
even when its reallocation fails), and a truncating `resize`
(`s < length`) that leaves the container empty leaves `offs = 0`;
a `resize` with `s = length` returns with the container unchanged;
`append`/`insertAt`/`insertFast` (with their preconditions) never
leave the container empty; the removal operations do not reset the
offset: `pop`, `removeAt` and `removeFast` leave it unchanged, and
`dequeue` leaves `offs = old offs + 1`, which is nonzero — so
dequeueing the container empty violates the original claim. -/
theorem empty_offset_reset [Inhabited α] (a : Dynarr α) (hWF : WF a)
    (i s c : Int) (v z : α) (ok : Bool) :
    ((dynarrClear a).offs = 0 ∧ (dynarrClear a).size = 0) ∧
    ((dynarrCapacity a c ok).2.offs = 0) ∧
    (s < a.size → (dynarrResize a s z ok).2.size = 0 →
      (dynarrResize a s z ok).2.offs = 0) ∧
    (s = a.size → dynarrResize a s z ok = (a.size, a)) ∧
    ((dynarrPush a v ok).2.size ≠ 0) ∧
    (0 ≤ i → i < a.size → (dynarrInsert a i v ok).2.size ≠ 0) ∧
    (0 ≤ i → i < a.size → (dynarrShove a i v ok).2.size ≠ 0) ∧
    ((dynarrPop a).2.offs = a.offs) ∧
    ((dynarrDequeue a).2.offs = a.offs + 1) ∧
    ((dynarrDequeue a).2.offs ≠ 0) ∧
    ((dynarrRemove a i).offs = a.offs) ∧
    ((dynarrDitch a i).offs = a.offs) := by
  obtain ⟨ho, hs0, hc0, hl⟩ := hWF
  refine ⟨⟨rfl, rfl⟩, ?_, ?_, ?_, ?_, ?_, ?_, rfl, rfl, ?_, rfl, ?_⟩
  · -- adjustCapacity always compacts the offset to 0
    unfold dynarrCapacity
    dsimp only
    by_cases hO : ¬ a.offs = 0
    · rw [if_pos hO]
      dsimp only
      by_cases hC : (if c < a.size then a.size else c) ≠ a.capa
      · rw [if_pos hC]
        cases ok with
        | false => rw [if_neg Bool.false_ne_true]
        | true => rw [if_pos rfl]
      · rw [if_neg hC]
    · rw [if_neg hO]
      have ho0 : a.offs = 0 := not_not.mp hO
      by_cases hC : (if c < a.size then a.size else c) ≠ a.capa
      · rw [if_pos hC]
        cases ok with
        | false =>
          rw [if_neg Bool.false_ne_true]
          exact ho0
        | true =>
          rw [if_pos rfl]
          exact ho0
      · rw [if_neg hC]
        exact ho0
  · -- truncating resize to empty resets the offset
    intro hs hz
    unfold dynarrResize at hz ⊢
    rw [if_pos hs] at hz ⊢
    dsimp only at hz ⊢
    by_cases h0 : (if s < 0 then (0 : Int) else s) = 0
    · rw [if_pos h0]
    · rw [if_neg h0] at hz
      exact absurd hz h0
  · -- resize to the current size is the identity
    intro hs
    unfold dynarrResize
    rw [if_neg (by omega), if_neg (by omega)]
  · -- push never leaves the container empty
    obtain ⟨hcases, hpost⟩ := dynarrGrow_spec a ok ⟨ho, hs0, hc0, hl⟩
    rcases hcases with h0 | ⟨hm1, hst⟩
    · have hgs := (hpost h0).2.1
      unfold dynarrPush
      dsimp only
      rw [if_pos h0]
      show (dynarrGrow a ok).2.size + 1 ≠ 0
      omega
    · have hbig : a.offs < a.size := by
        unfold dynarrGrow at hm1
        by_cases hfull : a.offs + a.size = a.capa
        · rw [if_pos hfull] at hm1
          by_cases hcase : a.size ≤ a.offs
          · rw [if_pos hcase] at hm1
            dsimp only at hm1
            omega
          · omega
        · rw [if_neg hfull] at hm1
          dsimp only at hm1
          omega
      unfold dynarrPush
      dsimp only
      rw [if_neg (by omega), hst]
      show a.size ≠ 0
      omega
  · -- insertAt with a valid index never leaves the container empty
    intro hi0 hisz
    obtain ⟨hcases, hpost⟩ := dynarrGrow_spec a ok ⟨ho, hs0, hc0, hl⟩
    rcases hcases with h0 | ⟨hm1, hst⟩
    · have hgs := (hpost h0).2.1
      unfold dynarrInsert
      dsimp only
      rw [if_pos h0]
      show (dynarrGrow a ok).2.size + 1 ≠ 0
      omega
    · unfold dynarrInsert
      dsimp only
      rw [if_neg (by omega), hst]
      show a.size ≠ 0
      omega
  · -- insertFast with a valid index never leaves the container empty
    intro hi0 hisz
    obtain ⟨hcases, hpost⟩ := dynarrGrow_spec a ok ⟨ho, hs0, hc0, hl⟩
    rcases hcases with h0 | ⟨hm1, hst⟩
    · have hgs := (hpost h0).2.1
      unfold dynarrShove
      dsimp only
      rw [if_pos h0]
      show (dynarrGrow a ok).2.size + 1 ≠ 0
      omega
    · unfold dynarrShove
      dsimp only
      rw [if_neg (by omega), hst]
      show a.size ≠ 0
      omega
  · -- dequeue leaves a nonzero offset
    show a.offs + 1 ≠ 0
    omega
  · -- removeFast keeps the offset
    unfold dynarrDitch dynarrPop
    dsimp only

/-- Witness for C2 (amended): adjustCapacity and a truncation to empty
reset the offset on a concrete container, while dequeue bumps it. -/
theorem empty_offset_reset_witness :
    (dynarrCapacity ({ capa := 2, elem := 4, offs := 1, size := 1, buf := [7, 9] } :
        Dynarr Int) 2 true).2.offs = 0 ∧
    (dynarrResize ({ capa := 2, elem := 4, offs := 1, size := 1, buf := [7, 9] } :
        Dynarr Int) 0 0 true).2.offs = 0 ∧
    (dynarrDequeue ({ capa := 2, elem := 4, offs := 1, size := 1, buf := [7, 9] } :
        Dynarr Int)).2.offs = 2 := by
  have h := empty_offset_reset ({ capa := 2, elem := 4, offs := 1, size := 1, buf := [7, 9] } : Dynarr Int) (by decide) 0 0 2 0 0 true
  refine ⟨h.2.1, h.2.2.1 (by decide) (by decide), ?_⟩
  rw [h.2.2.2.2.2.2.2.2.1]
  decide

/-- C10 (code bug): `adjustCapacity` with request 0 on a fresh empty
container shrinks the capacity to 0; `dynarrGrow` then reports success
(through the compaction branch) while `offs + size < capa` fails, so
the subsequent `DYNARR_PUSH` store lands outside the reserved slots. -/
theorem grow_after_capacity_zero_unsafe :
    (dynarrCapacity (dynarrNew 4 (0 : Int)) 0 true).1 = 0 ∧
    (dynarrCapacity (dynarrNew 4 (0 : Int)) 0 true).2.capa = 0 ∧
    (dynarrGrow (dynarrCapacity (dynarrNew 4 (0 : Int)) 0 true).2 true).1 = 0 ∧
    ¬ ((dynarrGrow (dynarrCapacity (dynarrNew 4 (0 : Int)) 0 true).2 true).2.offs +
         (dynarrGrow (dynarrCapacity (dynarrNew 4 (0 : Int)) 0 true).2 true).2.size <
       (dynarrGrow (dynarrCapacity (dynarrNew 4 (0 : Int)) 0 true).2 true).2.capa) := by
  decide

theorem dynarrResize_fail_state [Inhabited α] (a : Dynarr α) (s : Int) (z : α)
    (hWF : WF a) (hfail : (dynarrResize a s z false).1 = -1) :
    (dynarrResize a s z false).2.size = a.size ∧
    (dynarrResize a s z false).2.capa = a.capa ∧
    (dynarrResize a s z false).2.elem = a.elem ∧
    logical (dynarrResize a s z false).2 = logical a ∧
    ((dynarrResize a s z false).2.offs = a.offs ∨
      (dynarrResize a s z false).2.offs = 0) := by
  obtain ⟨ho, hs, hc, hl⟩ := hWF
  have hseg : a.offs.toNat + a.size.toNat ≤ a.buf.length := by
    rw [hl]; omega
  by_cases h1 : s < a.size
  · exfalso
    unfold dynarrResize at hfail
    rw [if_pos h1] at hfail
    dsimp only at hfail
    by_cases h0 : (if s < 0 then (0 : Int) else s) = 0
    · rw [if_pos h0] at hfail
      dsimp only at hfail
      rw [h0] at hfail
      exact absurd hfail (by decide)
    · rw [if_neg h0] at hfail
      dsimp only at hfail
      rcases lt_or_ge s 0 with hneg | hpos
      · rw [if_pos hneg] at hfail
        exact absurd hfail (by decide)
      · rw [if_neg (not_lt.mpr hpos)] at hfail
        omega
  · by_cases h2 : a.size < s
    · unfold dynarrResize at hfail ⊢
      rw [if_neg h1, if_pos h2] at hfail ⊢
      dsimp only at hfail ⊢
      by_cases hA : a.capa < a.offs + s ∧ ¬ a.offs = 0
      · rw [if_pos hA] at hfail ⊢
        dsimp only at hfail ⊢
        by_cases hB : a.capa < a.offs + s ∧ a.capa < s
        · rw [if_pos hB] at hfail ⊢
          rw [if_neg Bool.false_ne_true] at hfail ⊢
          refine ⟨rfl, rfl, rfl, ?_, Or.inr rfl⟩
          show bufSeg (moveTo0 a.buf a.offs.toNat a.size.toNat) (0 : Int).toNat
            a.size.toNat = logical a
          rw [Int.toNat_zero]
          exact bufSeg_moveTo0 hseg
        · rw [if_neg hB] at hfail
          exfalso
          omega
      · rw [if_neg hA] at hfail ⊢
        by_cases hB : a.capa < a.offs + s ∧ a.capa < s
        · rw [if_pos hB] at hfail ⊢
          rw [if_neg Bool.false_ne_true] at hfail ⊢
          exact ⟨rfl, rfl, rfl, rfl, Or.inl rfl⟩
        · rw [if_neg hB] at hfail
          exfalso
          omega
    · exfalso
      unfold dynarrResize at hfail
      rw [if_neg h1, if_neg (by omega : ¬ a.size < s)] at hfail
      dsimp only at hfail
      omega

theorem dynarrCapacity_fail_state [Inhabited α] (a : Dynarr α) (c : Int)
    (hWF : WF a) (hfail : (dynarrCapacity a c false).1 = -1) :
    (dynarrCapacity a c false).2.size = a.size ∧
    (dynarrCapacity a c false).2.capa = a.capa ∧
    (dynarrCapacity a c false).2.elem = a.elem ∧
    logical (dynarrCapacity a c false).2 = logical a ∧
    ((dynarrCapacity a c false).2.offs = a.offs ∨
      (dynarrCapacity a c false).2.offs = 0) := by
  obtain ⟨ho, hs, hc, hl⟩ := hWF
  have hseg : a.offs.toNat + a.size.toNat ≤ a.buf.length := by
    rw [hl]; omega
  unfold dynarrCapacity at hfail ⊢
  dsimp only at hfail ⊢
  by_cases hO : ¬ a.offs = 0
  · rw [if_pos hO] at hfail ⊢
    dsimp only at hfail ⊢
    by_cases hC : (if c < a.size then a.size else c) ≠ a.capa
    · rw [if_pos hC] at hfail ⊢
      rw [if_neg Bool.false_ne_true] at hfail ⊢
      refine ⟨rfl, rfl, rfl, ?_, Or.inr rfl⟩
      show bufSeg (moveTo0 a.buf a.offs.toNat a.size.toNat) (0 : Int).toNat
        a.size.toNat = logical a
      rw [Int.toNat_zero]
      exact bufSeg_moveTo0 hseg
    · rw [if_neg hC] at hfail
      exfalso
      omega
  · rw [if_neg hO] at hfail ⊢
    by_cases hC : (if c < a.size then a.size else c) ≠ a.capa
    · rw [if_pos hC] at hfail ⊢
      rw [if_neg Bool.false_ne_true] at hfail ⊢
      exact ⟨rfl, rfl, rfl, rfl, Or.inl rfl⟩
    · rw [if_neg hC] at hfail
      exfalso
      omega

/-- Counterexample to C1: a failing `dynarrResize` returns -1 but has
already compacted, so the observable offset differs from its value
immediately before the call. -/
theorem resize_fail_offset_changed :
    (dynarrResize ({ capa := 2, elem := 4, offs := 1, size := 1, buf := [7, 9] } :
        Dynarr Int) 3 0 false).1 = -1 ∧
    (dynarrResize ({ capa := 2, elem := 4, offs := 1, size := 1, buf := [7, 9] } :
        Dynarr Int) 3 0 false).2.offs ≠
      ({ capa := 2, elem := 4, offs := 1, size := 1, buf := [7, 9] } :
        Dynarr Int).offs := by
  decide

/-- C1 (amended): on allocation failure every fallible operation
returns -1; `append`/`push`, `insertAt` and `insertFast` leave the
whole container state (length, capacity, offset, contents) unchanged,
while `resize` and `adjustCapacity` leave length, capacity, element
width and the logical contents unchanged but may already have reset
the offset to 0 by their preliminary compaction. -/
theorem alloc_failure_effects [Inhabited α] (a : Dynarr α) (hWF : WF a)
    (v : α) (i s c : Int) (z : α) :
    ((dynarrPush a v false).1 = -1 → (dynarrPush a v false).2 = a) ∧
    (0 ≤ i → (dynarrInsert a i v false).1 = -1 → (dynarrInsert a i v false).2 = a) ∧
    (0 ≤ i → (dynarrShove a i v false).1 = -1 → (dynarrShove a i v false).2 = a) ∧
    ((dynarrResize a s z false).1 = -1 →
      (dynarrResize a s z false).2.size = a.size ∧
      (dynarrResize a s z false).2.capa = a.capa ∧
      (dynarrResize a s z false).2.elem = a.elem ∧
      logical (dynarrResize a s z false).2 = logical a ∧
      ((dynarrResize a s z false).2.offs = a.offs ∨
        (dynarrResize a s z false).2.offs = 0)) ∧
    ((dynarrCapacity a c false).1 = -1 →
      (dynarrCapacity a c false).2.size = a.size ∧
      (dynarrCapacity a c false).2.capa = a.capa ∧
      (dynarrCapacity a c false).2.elem = a.elem ∧
      logical (dynarrCapacity a c false).2 = logical a ∧
      ((dynarrCapacity a c false).2.offs = a.offs ∨
        (dynarrCapacity a c false).2.offs = 0)) := by
  obtain ⟨hcases, hpost⟩ := dynarrGrow_spec a false hWF
  have hs0 : (0 : Int) ≤ a.size := hWF.2.1
  refine ⟨?_, ?_, ?_, dynarrResize_fail_state a s z hWF,
    dynarrCapacity_fail_state a c hWF⟩
  · intro hfail
    unfold dynarrPush at hfail ⊢
    dsimp only at hfail ⊢
    rcases hcases with h0 | ⟨hm1, hst⟩
    · rw [if_pos h0] at hfail
      dsimp only at hfail
      rw [(hpost h0).2.1] at hfail
      omega
    · rw [if_neg (by omega)] at hfail ⊢
      exact hst
  · intro hi hfail
    unfold dynarrInsert at hfail ⊢
    dsimp only at hfail ⊢
    rcases hcases with h0 | ⟨hm1, hst⟩
    · rw [if_pos h0] at hfail
      dsimp only at hfail
      omega
    · rw [if_neg (by omega)] at hfail ⊢
      exact hst
  · intro hi hfail
    unfold dynarrShove at hfail ⊢
    dsimp only at hfail ⊢
    rcases hcases with h0 | ⟨hm1, hst⟩
    · rw [if_pos h0] at hfail
      dsimp only at hfail
      omega
    · rw [if_neg (by omega)] at hfail ⊢
      exact hst

/-- Witness for C1 (amended): a concrete full container on which a
failing push really does return -1 unchanged, and a failing resize
keeps size, capacity and logical contents. -/
theorem alloc_failure_effects_witness :
    (dynarrPush ({ capa := 2, elem := 4, offs := 0, size := 2, buf := [7, 9] } :
        Dynarr Int) 5 false).2 =
      { capa := 2, elem := 4, offs := 0, size := 2, buf := [7, 9] } ∧
    logical (dynarrResize ({ capa := 2, elem := 4, offs := 1, size := 1, buf := [7, 9] } :
        Dynarr Int) 3 0 false).2 =
      logical ({ capa := 2, elem := 4, offs := 1, size := 1, buf := [7, 9] } :
        Dynarr Int) := by
  constructor
  · exact (alloc_failure_effects ({ capa := 2, elem := 4, offs := 0, size := 2, buf := [7, 9] } : Dynarr Int) (by decide) 5 0 0 0 0).1 (by decide)
  · exact ((alloc_failure_effects ({ capa := 2, elem := 4, offs := 1, size := 1, buf := [7, 9] } : Dynarr Int) (by decide) 0 0 3 0 0).2.2.2.1 (by decide)).2.2.2.1

theorem shiftUp1_length {l : List α} {p n : Nat} (h : p + 1 + n ≤ l.length) :
    (shiftUp1 l p n).length = l.length := by
  simp only [shiftUp1, List.length_append, List.length_take, bufSeg_length
    (by omega : p + n ≤ l.length), List.length_drop]
  omega

theorem shiftDown1_length {l : List α} {p n : Nat} (h : p + 1 + n ≤ l.length) :
    (shiftDown1 l p n).length = l.length := by
  simp only [shiftDown1, List.length_append, List.length_take, bufSeg_length
    (by omega : p + 1 + n ≤ l.length), List.length_drop]
  omega

theorem logical_fillZero {l : List α} {p q m : Nat} (z : α)
    (h : p + q + m ≤ l.length) :
    bufSeg (fillZero l (p + q) m z) p (q + m) = bufSeg l p q ++ List.replicate m z := by
  have h1 : p ≤ (l.take (p + q)).length := by
    simp only [List.length_take]
    omega
  have hA : (l.take (p + q)).drop p = (l.drop p).take q := by
    rw [List.drop_take]
    congr 1
    omega
  have hlenA : ((l.drop p).take q).length = q := by
    simp only [List.length_take, List.length_drop]
    omega
  unfold fillZero bufSeg
  rw [List.append_assoc, List.drop_append_of_le_length h1, hA,
    List.take_append_eq_append_take, hlenA]
  simp only [Nat.add_sub_cancel_left]
  rw [List.take_take, min_eq_right (Nat.le_add_right q m),
    List.take_append_of_le_length (le_of_eq (List.length_replicate m z).symm),
    List.take_of_length_le (le_of_eq (List.length_replicate m z))]

theorem dynarrResize_grow_spec [Inhabited α] (a : Dynarr α) (s : Int) (z : α)
    (ok : Bool) (hWF : WF a) (h2 : a.size < s)
    (hok : ok = true ∨ (dynarrResize a s z ok).1 ≠ -1) :
    (dynarrResize a s z ok).1 = s ∧
    WF (dynarrResize a s z ok).2 ∧
    (dynarrResize a s z ok).2.size = s ∧
    (dynarrResize a s z ok).2.elem = a.elem ∧
    (dynarrResize a s z ok).2.capa = (if a.capa < s then s else a.capa) ∧
    (dynarrResize a s z ok).2.offs = (if a.capa < a.offs + s then 0 else a.offs) ∧
    logical (dynarrResize a s z ok).2 =
      logical a ++ List.replicate (s - a.size).toNat z := by
  obtain ⟨ho, hs, hc, hl⟩ := hWF
  have hseg : a.offs.toNat + a.size.toNat ≤ a.buf.length := by
    rw [hl]; omega
  unfold dynarrResize at hok ⊢
  rw [if_neg (by omega : ¬ s < a.size), if_pos h2] at hok ⊢
  dsimp only at hok ⊢
  by_cases hA : a.capa < a.offs + s ∧ ¬ a.offs = 0
  · rw [if_pos hA] at hok ⊢
    dsimp only at hok ⊢
    by_cases hB : a.capa < a.offs + s ∧ a.capa < s
    · rw [if_pos hB] at hok ⊢
      cases ok with
      | false =>
        exfalso
        rw [if_neg Bool.false_ne_true] at hok
        rcases hok with h | h
        · exact Bool.false_ne_true h
        · exact h rfl
      | true =>
        rw [if_pos rfl]
        have hmv : (moveTo0 a.buf a.offs.toNat a.size.toNat).length = a.buf.length :=
          moveTo0_length hseg
        have hru : (reallocBuf (moveTo0 a.buf a.offs.toNat a.size.toNat) s.toNat
            (default : α)).length = s.toNat := reallocBuf_length _ _ _
        refine ⟨rfl, ⟨le_rfl, by show (0 : Int) ≤ s; omega,
          by show (0 : Int) + s ≤ s; omega, ?_⟩, rfl, rfl, ?_, ?_, ?_⟩
        · show (fillZero _ ((0 : Int) + a.size).toNat (s - a.size).toNat z).length =
            s.toNat
          rw [fillZero_length z (by rw [hru]; omega), hru]
        · show s = if a.capa < s then s else a.capa
          rw [if_pos hB.2]
        · show (0 : Int) = if a.capa < a.offs + s then 0 else a.offs
          rw [if_pos hA.1]
        · show bufSeg (fillZero (reallocBuf (moveTo0 a.buf a.offs.toNat a.size.toNat)
              s.toNat default) ((0 : Int) + a.size).toNat (s - a.size).toNat z)
              (0 : Int).toNat s.toNat = logical a ++ List.replicate (s - a.size).toNat z
          rw [show ((0 : Int) + a.size).toNat = 0 + a.size.toNat by omega,
            Int.toNat_zero, show s.toNat = a.size.toNat + (s - a.size).toNat by omega,
            logical_fillZero z (by rw [reallocBuf_length]; omega),
            bufSeg_reallocBuf _ (by omega) (by omega),
            bufSeg_moveTo0 hseg]
          rfl
    · rw [if_neg hB] at hok ⊢
      have hcs : ¬ a.capa < s := fun hb => hB ⟨hA.1, hb⟩
      have hmv : (moveTo0 a.buf a.offs.toNat a.size.toNat).length = a.buf.length :=
        moveTo0_length hseg
      refine ⟨rfl, ⟨le_rfl, by show (0 : Int) ≤ s; omega,
        by show (0 : Int) + s ≤ a.capa; omega, ?_⟩, rfl, rfl, ?_, ?_, ?_⟩
      · show (fillZero _ ((0 : Int) + a.size).toNat (s - a.size).toNat z).length =
          a.capa.toNat
        rw [fillZero_length z (by rw [hmv, hl]; omega), hmv, hl]
      · show a.capa = if a.capa < s then s else a.capa
        rw [if_neg hcs]
      · show (0 : Int) = if a.capa < a.offs + s then 0 else a.offs
        rw [if_pos hA.1]
      · show bufSeg (fillZero (moveTo0 a.buf a.offs.toNat a.size.toNat)
            ((0 : Int) + a.size).toNat (s - a.size).toNat z)
            (0 : Int).toNat s.toNat = logical a ++ List.replicate (s - a.size).toNat z
        rw [show ((0 : Int) + a.size).toNat = 0 + a.size.toNat by omega,
          Int.toNat_zero, show s.toNat = a.size.toNat + (s - a.size).toNat by omega,
          logical_fillZero z (by rw [hmv, hl]; omega),
          bufSeg_moveTo0 hseg]
        rfl
  · rw [if_neg hA] at hok ⊢
    by_cases hB : a.capa < a.offs + s ∧ a.capa < s
    · have ho0 : a.offs = 0 := by
        by_contra hne
        exact hA ⟨hB.1, hne⟩
      rw [if_pos hB] at hok ⊢
      cases ok with
      | false =>
        exfalso
        rw [if_neg Bool.false_ne_true] at hok
        rcases hok with h | h
        · exact Bool.false_ne_true h
        · exact h rfl
      | true =>
        rw [if_pos rfl]
        have hru : (reallocBuf a.buf s.toNat (default : α)).length = s.toNat :=
          reallocBuf_length _ _ _
        refine ⟨rfl, ⟨ho, by show (0 : Int) ≤ s; omega,
          by show a.offs + s ≤ s; omega, ?_⟩, rfl, rfl, ?_, ?_, ?_⟩
        · show (fillZero _ (a.offs + a.size).toNat (s - a.size).toNat z).length =
            s.toNat
          rw [fillZero_length z (by rw [hru]; omega), hru]
        · show s = if a.capa < s then s else a.capa
          rw [if_pos hB.2]
        · show a.offs = if a.capa < a.offs + s then 0 else a.offs
          rw [if_pos hB.1, ho0]
        · show bufSeg (fillZero (reallocBuf a.buf s.toNat default)
              (a.offs + a.size).toNat (s - a.size).toNat z)
              a.offs.toNat s.toNat = logical a ++ List.replicate (s - a.size).toNat z
          rw [show (a.offs + a.size).toNat = a.offs.toNat + a.size.toNat by omega,
            show s.toNat = a.size.toNat + (s - a.size).toNat by omega,
            logical_fillZero z (by rw [reallocBuf_length]; omega),
            bufSeg_reallocBuf _ (by omega) (by omega)]
          rfl
    · rw [if_neg hB] at hok ⊢
      have hcs : ¬ a.capa < s := fun hb => hB ⟨by omega, hb⟩
      have hfit : a.offs + s ≤ a.capa := by
        by_contra hlt
        have ho0 : a.offs = 0 := by
          by_contra hne
          exact hA ⟨by omega, hne⟩
        omega
      refine ⟨rfl, ⟨ho, by show (0 : Int) ≤ s; omega,
        by show a.offs + s ≤ a.capa; omega, ?_⟩, rfl, rfl, ?_, ?_, ?_⟩
      · show (fillZero a.buf (a.offs + a.size).toNat (s - a.size).toNat z).length =
          a.capa.toNat
        rw [fillZero_length z (by rw [hl]; omega), hl]
      · show a.capa = if a.capa < s then s else a.capa
        rw [if_neg hcs]
      · show a.offs = if a.capa < a.offs + s then 0 else a.offs
        rw [if_neg (by omega : ¬ a.capa < a.offs + s)]
      · show bufSeg (fillZero a.buf (a.offs + a.size).toNat (s - a.size).toNat z)
            a.offs.toNat s.toNat = logical a ++ List.replicate (s - a.size).toNat z
        rw [show (a.offs + a.size).toNat = a.offs.toNat + a.size.toNat by omega,
          show s.toNat = a.size.toNat + (s - a.size).toNat by omega,
          logical_fillZero z (by omega)]
        rfl

/-- C5: a successful growing `resize(s)` (`s > size`) compacts exactly
when `offs + s` exceeds the capacity (otherwise keeps the offset),
reallocates the capacity to exactly `s` when `s` exceeds the capacity
and keeps it otherwise, zero-fills the newly exposed logical slots
`[oldSize, s)`, sets `size = s` and returns `s`. -/
theorem resize_grow_exact [Inhabited α] (a : Dynarr α) (s : Int) (z : α)
    (hWF : WF a) (hs : a.size < s) :
    (dynarrResize a s z true).1 = s ∧
    (dynarrResize a s z true).2.size = s ∧
    (dynarrResize a s z true).2.capa = (if a.capa < s then s else a.capa) ∧
    (a.capa < a.offs + s → (dynarrResize a s z true).2.offs = 0) ∧
    (a.offs + s ≤ a.capa → (dynarrResize a s z true).2.offs = a.offs) ∧
    logical (dynarrResize a s z true).2 =
      logical a ++ List.replicate (s - a.size).toNat z := by
  obtain ⟨h1, hW, hsz, hel, hcapa, hoffs, hlog⟩ :=
    dynarrResize_grow_spec a s z true hWF hs (Or.inl rfl)
  refine ⟨h1, hsz, hcapa, ?_, ?_, hlog⟩
  · intro hlt
    rw [hoffs, if_pos hlt]
  · intro hle
    rw [hoffs, if_neg (by omega)]

/-- Witness for C5 on a concrete container that both compacts and
reallocates: resize of `[9]` (offset 1, capacity 2) to 3 yields
`[9, 0, 0]` and returns 3. -/
theorem resize_grow_exact_witness :
    (dynarrResize ({ capa := 2, elem := 4, offs := 1, size := 1, buf := [7, 9] } :
        Dynarr Int) 3 0 true).1 = 3 ∧
    logical (dynarrResize ({ capa := 2, elem := 4, offs := 1, size := 1, buf := [7, 9] } :
        Dynarr Int) 3 0 true).2 = [9, 0, 0] := by
  have h := resize_grow_exact ({ capa := 2, elem := 4, offs := 1, size := 1, buf := [7, 9] } : Dynarr Int) 3 0 (by decide) (by decide)
  refine ⟨h.1, ?_⟩
  rw [h.2.2.2.2.2]
  decide

theorem dynarrCapacity_ok_wf [Inhabited α] (a : Dynarr α) (c : Int) (ok : Bool)
    (hWF : WF a) (hsucc : (dynarrCapacity a c ok).1 ≠ -1) :
    WF (dynarrCapacity a c ok).2 := by
  obtain ⟨ho, hs, hc, hl⟩ := hWF
  have hseg : a.offs.toNat + a.size.toNat ≤ a.buf.length := by
    rw [hl]; omega
  have hmv : (moveTo0 a.buf a.offs.toNat a.size.toNat).length = a.buf.length :=
    moveTo0_length hseg
  unfold dynarrCapacity at hsucc ⊢
  dsimp only at hsucc ⊢
  by_cases hcs : c < a.size
  · rw [if_pos hcs] at hsucc ⊢
    by_cases hO : ¬ a.offs = 0
    · rw [if_pos hO] at hsucc ⊢
      dsimp only at hsucc ⊢
      by_cases hC : a.size ≠ a.capa
      · rw [if_pos hC] at hsucc ⊢
        cases ok with
        | false =>
          rw [if_neg Bool.false_ne_true] at hsucc
          exact absurd rfl hsucc
        | true =>
          rw [if_pos rfl]
          refine ⟨le_rfl, hs, by show (0 : Int) + a.size ≤ a.size; omega, ?_⟩
          show (reallocBuf _ a.size.toNat (default : α)).length = a.size.toNat
          rw [reallocBuf_length]
      · rw [if_neg hC] at hsucc ⊢
        refine ⟨le_rfl, hs, by show (0 : Int) + a.size ≤ a.capa; omega, ?_⟩
        show (moveTo0 a.buf a.offs.toNat a.size.toNat).length = a.capa.toNat
        rw [hmv, hl]
    · rw [if_neg hO] at hsucc ⊢
      by_cases hC : a.size ≠ a.capa
      · rw [if_pos hC] at hsucc ⊢
        cases ok with
        | false =>
          rw [if_neg Bool.false_ne_true] at hsucc
          exact absurd rfl hsucc
        | true =>
          rw [if_pos rfl]
          refine ⟨ho, hs, by show a.offs + a.size ≤ a.size; omega, ?_⟩
          show (reallocBuf _ a.size.toNat (default : α)).length = a.size.toNat
          rw [reallocBuf_length]
      · rw [if_neg hC] at hsucc ⊢
        exact ⟨ho, hs, hc, hl⟩
  · rw [if_neg hcs] at hsucc ⊢
    by_cases hO : ¬ a.offs = 0
    · rw [if_pos hO] at hsucc ⊢
      dsimp only at hsucc ⊢
      by_cases hC : c ≠ a.capa
      · rw [if_pos hC] at hsucc ⊢
        cases ok with
        | false =>
          rw [if_neg Bool.false_ne_true] at hsucc
          exact absurd rfl hsucc
        | true =>
          rw [if_pos rfl]
          refine ⟨le_rfl, hs, by show (0 : Int) + a.size ≤ c; omega, ?_⟩
          show (reallocBuf _ c.toNat (default : α)).length = c.toNat
          rw [reallocBuf_length]
      · rw [if_neg hC] at hsucc ⊢
        refine ⟨le_rfl, hs, by show (0 : Int) + a.size ≤ a.capa; omega, ?_⟩
        show (moveTo0 a.buf a.offs.toNat a.size.toNat).length = a.capa.toNat
        rw [hmv, hl]
    · rw [if_neg hO] at hsucc ⊢
      by_cases hC : c ≠ a.capa
      · rw [if_pos hC] at hsucc ⊢
        cases ok with
        | false =>
          rw [if_neg Bool.false_ne_true] at hsucc
          exact absurd rfl hsucc
        | true =>
          rw [if_pos rfl]
          refine ⟨ho, hs, by show a.offs + a.size ≤ c; omega, ?_⟩
          show (reallocBuf _ c.toNat (default : α)).length = c.toNat
          rw [reallocBuf_length]
      · rw [if_neg hC] at hsucc ⊢
        exact ⟨ho, hs, hc, hl⟩

/-- Counterexample to C3: the well-formed capacity-0 container (as
produced by `adjustCapacity(0)` on an empty container) satisfies the
invariant, yet a successful push leaves `size = 1 > 0 = capa`,
violating `offset + length ≤ capacity`. -/
theorem push_capacity_zero_breaks_wf :
    WF ({ capa := 0, elem := 4, offs := 0, size := 0, buf := [] } : Dynarr Int) ∧
    (dynarrPush ({ capa := 0, elem := 4, offs := 0, size := 0, buf := [] } :
        Dynarr Int) 5 true).1 ≠ -1 ∧
    ¬ WF (dynarrPush ({ capa := 0, elem := 4, offs := 0, size := 0, buf := [] } :
        Dynarr Int) 5 true).2 := by
  decide

/-- C3 (amended): on well-formed states (`offs ≥ 0`, `size ≥ 0`,
`offs + size ≤ capa`, buffer of `capa` slots), every operation with
its preconditions — and success where allocation is involved —
re-establishes well-formedness, with the single exception of
append/push, which additionally needs `capa ≥ 1` (push on a reachable
capacity-0 container breaks the invariant); logical element `j` always
resides at buffer slot `offs + j`. -/
theorem wf_preservation [Inhabited α] (a : Dynarr α) (hWF : WF a) :
    (∀ (j : Nat) (d : α), j < a.size.toNat →
      (logical a).getD j d = a.buf.getD (a.offs.toNat + j) d) ∧
    (∀ v ok, 1 ≤ a.capa → (dynarrPush a v ok).1 ≠ -1 → WF (dynarrPush a v ok).2) ∧
    (∀ ok, (dynarrGrow a ok).1 ≠ -1 → WF (dynarrGrow a ok).2) ∧
    (0 < a.size → WF (dynarrPop a).2) ∧
    (0 < a.size → WF (dynarrDequeue a).2) ∧
    WF (dynarrClear a) ∧
    (∀ i v ok, 0 ≤ i → i < a.size → (dynarrInsert a i v ok).1 ≠ -1 →
      WF (dynarrInsert a i v ok).2) ∧
    (∀ i v ok, 0 ≤ i → i < a.size → (dynarrShove a i v ok).1 ≠ -1 →
      WF (dynarrShove a i v ok).2) ∧
    (∀ i, 0 ≤ i → i < a.size → WF (dynarrRemove a i)) ∧
    (∀ i, 0 ≤ i → i < a.size → WF (dynarrDitch a i)) ∧
    (∀ s z ok, (dynarrResize a s z ok).1 ≠ -1 → WF (dynarrResize a s z ok).2) ∧
    (∀ c ok, (dynarrCapacity a c ok).1 ≠ -1 → WF (dynarrCapacity a c ok).2) := by
  obtain ⟨ho, hs, hc, hl⟩ := hWF
  have hseg : a.offs.toNat + a.size.toNat ≤ a.buf.length := by
    rw [hl]; omega
  refine ⟨?_, ?_, ?_, ?_, ?_, ?_, ?_, ?_, ?_, ?_, ?_, ?_⟩
  · intro j d hj
    exact bufSeg_getD d hseg hj
  · intro v ok hcapa hsucc
    obtain ⟨hcases, hpost⟩ := dynarrGrow_spec a ok ⟨ho, hs, hc, hl⟩
    rcases hcases with h0 | ⟨hm1, _⟩
    · obtain ⟨⟨go, gs, gc, gl⟩, gsz, _, _, glt⟩ := hpost h0
      have hlt := glt hcapa
      unfold dynarrPush
      dsimp only
      rw [if_pos h0]
      refine ⟨go, by show (0 : Int) ≤ (dynarrGrow a ok).2.size + 1; omega, ?_, ?_⟩
      · show (dynarrGrow a ok).2.offs + ((dynarrGrow a ok).2.size + 1) ≤
          (dynarrGrow a ok).2.capa
        omega
      · show (writeAt (dynarrGrow a ok).2.buf
            ((dynarrGrow a ok).2.offs + (dynarrGrow a ok).2.size).toNat v).length =
          (dynarrGrow a ok).2.capa.toNat
        rw [writeAt_length v (by rw [gl]; omega), gl]
    · exfalso
      apply hsucc
      unfold dynarrPush
      dsimp only
      rw [if_neg (by omega)]
  · intro ok hsucc
    obtain ⟨hcases, hpost⟩ := dynarrGrow_spec a ok ⟨ho, hs, hc, hl⟩
    rcases hcases with h0 | ⟨hm1, _⟩
    · exact (hpost h0).1
    · exact absurd hm1 (by omega)
  · intro hpos
    unfold dynarrPop
    exact ⟨ho, by show (0 : Int) ≤ a.size - 1; omega,
      by show a.offs + (a.size - 1) ≤ a.capa; omega, hl⟩
  · intro hpos
    unfold dynarrDequeue
    exact ⟨by show (0 : Int) ≤ a.offs + 1; omega,
      by show (0 : Int) ≤ a.size - 1; omega,
      by show a.offs + 1 + (a.size - 1) ≤ a.capa; omega, hl⟩
  · exact ⟨le_rfl, le_rfl, by show (0 : Int) + 0 ≤ a.capa; omega, hl⟩
  · intro i v ok hi0 hisz hsucc
    obtain ⟨hcases, hpost⟩ := dynarrGrow_spec a ok ⟨ho, hs, hc, hl⟩
    rcases hcases with h0 | ⟨hm1, _⟩
    · obtain ⟨⟨go, gs, gc, gl⟩, gsz, _, _, glt⟩ := hpost h0
      have hlt := glt (by omega)
      unfold dynarrInsert
      dsimp only
      rw [if_pos h0]
      refine ⟨go, by show (0 : Int) ≤ (dynarrGrow a ok).2.size + 1; omega, ?_, ?_⟩
      · show (dynarrGrow a ok).2.offs + ((dynarrGrow a ok).2.size + 1) ≤
          (dynarrGrow a ok).2.capa
        omega
      · show (writeAt (shiftUp1 (dynarrGrow a ok).2.buf
            ((dynarrGrow a ok).2.offs + i).toNat
            ((dynarrGrow a ok).2.size - i).toNat)
            ((dynarrGrow a ok).2.offs + i).toNat v).length =
          (dynarrGrow a ok).2.capa.toNat
        rw [writeAt_length v, shiftUp1_length (by rw [gl]; omega), gl]
        rw [shiftUp1_length (by rw [gl]; omega), gl]
        omega
    · exfalso
      apply hsucc
      unfold dynarrInsert
      dsimp only
      rw [if_neg (by omega)]
  · intro i v ok hi0 hisz hsucc
    obtain ⟨hcases, hpost⟩ := dynarrGrow_spec a ok ⟨ho, hs, hc, hl⟩
    rcases hcases with h0 | ⟨hm1, _⟩
    · obtain ⟨⟨go, gs, gc, gl⟩, gsz, _, _, glt⟩ := hpost h0
      have hlt := glt (by omega)
      unfold dynarrShove
      dsimp only
      rw [if_pos h0]
      refine ⟨go, by show (0 : Int) ≤ (dynarrGrow a ok).2.size + 1; omega, ?_, ?_⟩
      · show (dynarrGrow a ok).2.offs + ((dynarrGrow a ok).2.size + 1) ≤
          (dynarrGrow a ok).2.capa
        omega
      · show (writeAt (writeAt (dynarrGrow a ok).2.buf
            ((dynarrGrow a ok).2.offs + (dynarrGrow a ok).2.size).toNat _)
            ((dynarrGrow a ok).2.offs + i).toNat v).length =
          (dynarrGrow a ok).2.capa.toNat
        rw [writeAt_length v, writeAt_length _ (by rw [gl]; omega), gl]
        rw [writeAt_length _ (by rw [gl]; omega), gl]
        omega
    · exfalso
      apply hsucc
      unfold dynarrShove
      dsimp only
      rw [if_neg (by omega)]
  · intro i hi0 hisz
    unfold dynarrRemove
    refine ⟨ho, by show (0 : Int) ≤ a.size - 1; omega,
      by show a.offs + (a.size - 1) ≤ a.capa; omega, ?_⟩
    show (shiftDown1 a.buf (a.offs + i).toNat (a.size - 1 - i).toNat).length =
      a.capa.toNat
    rw [shiftDown1_length (by rw [hl]; omega), hl]
  · intro i hi0 hisz
    unfold dynarrDitch dynarrPop
    dsimp only
    refine ⟨ho, by show (0 : Int) ≤ a.size - 1; omega,
      by show a.offs + (a.size - 1) ≤ a.capa; omega, ?_⟩
    show (writeAt a.buf (a.offs + i).toNat _).length = a.capa.toNat
    rw [writeAt_length _ (by rw [hl]; omega), hl]
  · intro s z ok hsucc
    by_cases h1 : s < a.size
    · unfold dynarrResize
      rw [if_pos h1]
      dsimp only
      by_cases h0 : (if s < 0 then (0 : Int) else s) = 0
      · rw [if_pos h0, h0]
        exact ⟨le_rfl, le_rfl, by show (0 : Int) + 0 ≤ a.capa; omega, hl⟩
      · rw [if_neg h0]
        refine ⟨ho, ?_, ?_, hl⟩
        · show (0 : Int) ≤ if s < 0 then 0 else s
          split_ifs <;> omega
        · show a.offs + (if s < 0 then (0 : Int) else s) ≤ a.capa
          split_ifs <;> omega
    · by_cases h2 : a.size < s
      · exact (dynarrResize_grow_spec a s z ok ⟨ho, hs, hc, hl⟩ h2
          (Or.inr hsucc)).2.1
      · unfold dynarrResize
        rw [if_neg h1, if_neg h2]
        exact ⟨ho, hs, hc, hl⟩
  · intro c ok hsucc
    exact dynarrCapacity_ok_wf a c ok ⟨ho, hs, hc, hl⟩ hsucc

/-- Witness for C3 (amended) at concrete states: push preserves
well-formedness at capacity 1, and dequeue preserves it on a
1-element container. -/
theorem wf_preservation_witness :
    WF (dynarrPush ({ capa := 1, elem := 4, offs := 0, size := 0, buf := [7] } :
        Dynarr Int) 5 true).2 ∧
    WF (dynarrDequeue ({ capa := 2, elem := 4, offs := 1, size := 1, buf := [7, 9] } :
        Dynarr Int)).2 := by
  constructor
  · exact (wf_preservation ({ capa := 1, elem := 4, offs := 0, size := 0, buf := [7] } : Dynarr Int) (by decide)).2.1 5 true (by decide) (by decide)
  · exact (wf_preservation ({ capa := 2, elem := 4, offs := 1, size := 1, buf := [7, 9] } : Dynarr Int) (by decide)).2.2.2.2.1 (by decide)

theorem bufSeg_insert_remove {l : List α} {o i n : Nat} (v : α)
    (h : o + i + 1 + n ≤ l.length) :
    bufSeg (shiftDown1 (writeAt (shiftUp1 l (o + i) n) (o + i) v) (o + i) n)
        o (i + n) =
      bufSeg l o (i + n) := by
  have hA1 : (l.take (o + i + 1)).length = o + i + 1 := by
    simp only [List.length_take]
    omega
  have hA : (l.take (o + i)).length = o + i := by
    simp only [List.length_take]
    omega
  have hM : (bufSeg l (o + i) n).length = n := bufSeg_length (by omega)
  have hB : writeAt (shiftUp1 l (o + i) n) (o + i) v =
      l.take (o + i) ++ v :: (bufSeg l (o + i) n ++ l.drop (o + i + 1 + n)) := by
    unfold writeAt shiftUp1
    rw [List.append_assoc, List.take_append_eq_append_take, hA1,
      Nat.sub_eq_zero_of_le (by omega), List.take_zero, List.append_nil,
      List.take_take, min_eq_left (by omega),
      List.drop_append_eq_append_drop, hA1,
      List.drop_of_length_le (le_of_eq hA1), List.nil_append,
      Nat.sub_self, List.drop_zero]
  have hBtake : (writeAt (shiftUp1 l (o + i) n) (o + i) v).take (o + i) =
      l.take (o + i) := by
    rw [hB, List.take_append_eq_append_take, hA, Nat.sub_self, List.take_zero,
      List.append_nil, List.take_take, min_self]
  have hBseg : bufSeg (writeAt (shiftUp1 l (o + i) n) (o + i) v) (o + i + 1) n =
      bufSeg l (o + i) n := by
    unfold bufSeg
    rw [hB, List.drop_append_eq_append_drop, hA,
      List.drop_of_length_le (by omega), List.nil_append,
      show o + i + 1 - (o + i) = 1 by omega, List.drop_one,
      List.tail_cons, List.take_append_of_le_length (le_of_eq hM.symm),
      List.take_of_length_le (le_of_eq hM)]
    rfl
  unfold shiftDown1
  rw [hBtake, hBseg]
  unfold bufSeg
  rw [List.append_assoc, List.drop_append_eq_append_drop, hA,
    Nat.sub_eq_zero_of_le (by omega), List.drop_zero, List.drop_take,
    show o + i - o = i by omega, List.take_append_eq_append_take]
  have hfit : ((l.drop o).take i).length = i := by
    simp only [List.length_take, List.length_drop]
    omega
  have hM2 : (List.take n (List.drop (o + i) l)).length = n := hM
  rw [hfit, List.take_of_length_le (by rw [hfit]; omega),
    Nat.add_sub_cancel_left, List.take_append_of_le_length (le_of_eq hM2.symm),
    List.take_of_length_le (le_of_eq hM2), List.take_add, List.drop_drop]

/-- C6: for a valid index `i`, a successful `insertAt(i, v)` followed
immediately by `removeAt(i)` restores the original logical sequence
and length. -/
theorem insert_remove_roundtrip [Inhabited α] (a : Dynarr α) (i : Int) (v : α)
    (ok : Bool) (hWF : WF a) (hi0 : 0 ≤ i) (hisz : i < a.size)
    (hsucc : (dynarrInsert a i v ok).1 ≠ -1) :
    logical (dynarrRemove (dynarrInsert a i v ok).2 i) = logical a ∧
    (dynarrRemove (dynarrInsert a i v ok).2 i).size = a.size := by
  obtain ⟨hcases, hpost⟩ := dynarrGrow_spec a ok hWF
  rcases hcases with hg0 | ⟨hm1, _⟩
  · obtain ⟨⟨go, gs, gc, gl⟩, gsz, _, glog, glt⟩ := hpost hg0
    have hlt := glt (by obtain ⟨ho, hs, hc, _⟩ := hWF; omega)
    unfold dynarrInsert dynarrRemove
    dsimp only
    rw [if_pos hg0]
    dsimp only
    set g : Dynarr α := (dynarrGrow a ok).2 with hgdef
    constructor
    · show bufSeg (shiftDown1 (writeAt (shiftUp1 g.buf (g.offs + i).toNat
          (g.size - i).toNat) (g.offs + i).toNat v)
          (g.offs + i).toNat (g.size + 1 - 1 - i).toNat)
          g.offs.toNat (g.size + 1 - 1).toNat = logical a
      rw [show (g.size + 1 - 1 - i).toNat = (g.size - i).toNat by omega,
        show (g.size + 1 - 1).toNat = i.toNat + (g.size - i).toNat by
          rw [gsz]; omega,
        show (g.offs + i).toNat = g.offs.toNat + i.toNat by
          rcases (hpost hg0).1 with ⟨x1, _, _, _⟩; omega,
        bufSeg_insert_remove v (by
          rw [gl]
          rcases (hpost hg0).1 with ⟨x1, x2, x3, _⟩
          rw [gsz] at hlt ⊢
          omega),
        show i.toNat + (g.size - i).toNat = g.size.toNat by rw [gsz]; omega]
      exact glog
    · show g.size + 1 - 1 = a.size
      omega
  · exfalso
    apply hsucc
    unfold dynarrInsert
    dsimp only
    rw [if_neg (by omega)]

/-- Witness for C6 on a concrete 3-element container. -/
theorem insert_remove_roundtrip_witness :
    logical (dynarrRemove (dynarrInsert ({ capa := 4, elem := 4, offs := 1, size := 3, buf := [0, 10, 20, 30] } : Dynarr Int) 1 99 true).2 1) =
      logical ({ capa := 4, elem := 4, offs := 1, size := 3, buf := [0, 10, 20, 30] } : Dynarr Int) ∧
    (dynarrRemove (dynarrInsert ({ capa := 4, elem := 4, offs := 1, size := 3, buf := [0, 10, 20, 30] } : Dynarr Int) 1 99 true).2 1).size = 3 :=
  insert_remove_roundtrip ({ capa := 4, elem := 4, offs := 1, size := 3, buf := [0, 10, 20, 30] } : Dynarr Int) 1 99 true (by decide) (by decide)
    (by decide) (by decide)

theorem findLinAux_spec [DecidableEq α] (k : α) (d : α) (l : List α) :
    ∀ b : Nat,
      (findLinAux k l b = -1 ↔ ¬ k ∈ l) ∧
      (k ∈ l → ∃ m : Nat, findLinAux k l b = (b : Int) + m ∧ m < l.length ∧
        l.getD m d = k ∧ ∀ j, j < m → l.getD j d ≠ k) := by
  induction l with
  | nil =>
    intro b
    refine ⟨by simp [findLinAux], by simp⟩
  | cons y ys ih =>
    intro b
    by_cases hy : y = k
    · refine ⟨?_, ?_⟩
      · unfold findLinAux
        rw [if_pos hy]
        simp [hy]
      · intro _
        refine ⟨0, ?_, by simp, by simpa using hy, by omega⟩
        unfold findLinAux
        rw [if_pos hy]
        omega
    · have hmem : (k ∈ y :: ys) ↔ k ∈ ys := by
        constructor
        · intro h
          rcases List.mem_cons.mp h with h1 | h1
          · exact absurd h1.symm hy
          · exact h1
        · exact fun h => List.mem_cons_of_mem y h
      refine ⟨?_, ?_⟩
      · unfold findLinAux
        rw [if_neg hy, hmem]
        exact ((ih (b + 1)).1)
      · intro hk
        obtain ⟨m, hm1, hm2, hm3, hm4⟩ := (ih (b + 1)).2 (hmem.mp hk)
        refine ⟨m + 1, ?_, by simp; omega, by simpa using hm3, ?_⟩
        · unfold findLinAux
          rw [if_neg hy]
          push_cast at hm1 ⊢
          rw [hm1]
          ring
        · intro j hj
          cases j with
          | zero => simpa using hy
          | succ jj =>
            have := hm4 jj (by omega)
            simpa using this

/-- C7: `dynarrFindLinear` returns the smallest logical index whose
element equals the key (fixed-width exact equality of the element
representation), and -1 exactly when no element equals the key. -/
theorem findLinear_first_match [DecidableEq α] (a : Dynarr α) (k d : α)
    (hWF : WF a) :
    (dynarrFindLinear a k = -1 ↔ ¬ k ∈ logical a) ∧
    (k ∈ logical a → ∃ m : Nat, dynarrFindLinear a k = m ∧ m < a.size.toNat ∧
      (logical a).getD m d = k ∧ ∀ j, j < m → (logical a).getD j d ≠ k) := by
  have h := findLinAux_spec k d (logical a) 0
  have hlen : (logical a).length = a.size.toNat := by
    obtain ⟨ho, hs, hc, hl⟩ := hWF
    exact bufSeg_length (by rw [hl]; omega)
  unfold dynarrFindLinear
  refine ⟨by simpa using h.1, fun hk => ?_⟩
  obtain ⟨m, hm1, hm2, hm3, hm4⟩ := h.2 hk
  rw [hlen] at hm2
  exact ⟨m, by simpa using hm1, hm2, hm3, hm4⟩

/-- Witness for C7: the key 77 is absent from the concrete container,
and the search returns the not-found sentinel accordingly. -/
theorem findLinear_first_match_witness :
    dynarrFindLinear ({ capa := 4, elem := 4, offs := 1, size := 3, buf := [0, 10, 20, 30] } : Dynarr Int) 77 = -1 ↔
      ¬ (77 : Int) ∈ logical ({ capa := 4, elem := 4, offs := 1, size := 3, buf := [0, 10, 20, 30] } : Dynarr Int) :=
  (findLinear_first_match ({ capa := 4, elem := 4, offs := 1, size := 3, buf := [0, 10, 20, 30] } : Dynarr Int) 77 0 (by decide)).1

/-! ### Insertion sort lemmas -/

theorem bubR_perm (comp : α → α → Int) (x : α) :
    ∀ l : List α, (bubR comp x l).Perm (x :: l) := by
  intro l
  induction l with
  | nil => simp [bubR]
  | cons y ys ih =>
    unfold bubR
    by_cases hc : 0 < comp y x
    · rw [if_pos hc]
      exact (ih.cons y).trans (List.Perm.swap x y ys)
    · rw [if_neg hc]

theorem bubR_chain (comp : α → α → Int)
    (hflip : ∀ a b, 0 < comp a b → comp b a ≤ 0) (x : α) :
    ∀ l : List α, List.Chain' (fun a b => comp b a ≤ 0) l →
      List.Chain' (fun a b => comp b a ≤ 0) (bubR comp x l) := by
  intro l
  induction l with
  | nil =>
    intro _
    simp [bubR]
  | cons y ys ih =>
    intro hch
    unfold bubR
    by_cases hc : 0 < comp y x
    · rw [if_pos hc]
      have hch2 := (List.chain'_cons'.mp hch).2
      apply List.chain'_cons'.mpr
      refine ⟨?_, ih hch2⟩
      intro z hz
      cases ys with
      | nil =>
        simp [bubR] at hz
        subst hz
        exact hflip y x hc
      | cons y2 ys2 =>
        unfold bubR at hz
        by_cases hc2 : 0 < comp y2 x
        · rw [if_pos hc2] at hz
          simp at hz
          subst hz
          exact (List.chain'_cons'.mp hch).1 y2 rfl
        · rw [if_neg hc2] at hz
          simp at hz
          subst hz
          exact hflip y x hc
    · rw [if_neg hc]
      apply List.chain'_cons'.mpr
      refine ⟨?_, hch⟩
      intro z hz
      simp at hz
      subst hz
      exact not_lt.mp hc

theorem bubR_filter (comp : α → α → Int) (k x : α)
    (hmix : ∀ y, 0 < comp y x → comp x k = 0 → ¬ comp y k = 0) :
    ∀ l : List α,
      (bubR comp x l).filter (fun e => comp e k == 0) =
        (if comp x k = 0 then x :: l.filter (fun e => comp e k == 0)
         else l.filter (fun e => comp e k == 0)) := by
  intro l
  induction l with
  | nil =>
    by_cases hx : comp x k = 0 <;> simp [bubR, hx]
  | cons y ys ih =>
    unfold bubR
    by_cases hc : 0 < comp y x
    · rw [if_pos hc]
      by_cases hx : comp x k = 0
      · have hy : ¬ comp y k = 0 := hmix y hc hx
        simp only [List.filter_cons, ih, if_pos hx]
        simp [hy]
      · simp only [List.filter_cons, ih, if_neg hx]
    · rw [if_neg hc]
      by_cases hx : comp x k = 0 <;> simp [List.filter_cons, hx]

theorem foldBub_perm (comp : α → α → Int) :
    ∀ (l acc : List α),
      (l.foldl (fun acc x => bubR comp x acc) acc).Perm (l ++ acc) := by
  intro l
  induction l with
  | nil =>
    intro acc
    simp
  | cons x ls ih =>
    intro acc
    have h1 := ih (bubR comp x acc)
    have h2 : (ls ++ bubR comp x acc).Perm (ls ++ x :: acc) :=
      (bubR_perm comp x acc).append_left ls
    have h3 : (ls ++ x :: acc).Perm (x :: (ls ++ acc)) := List.perm_middle
    exact (h1.trans h2).trans h3

theorem foldBub_chain (comp : α → α → Int)
    (hflip : ∀ a b, 0 < comp a b → comp b a ≤ 0) :
    ∀ (l acc : List α), List.Chain' (fun a b => comp b a ≤ 0) acc →
      List.Chain' (fun a b => comp b a ≤ 0)
        (l.foldl (fun acc x => bubR comp x acc) acc) := by
  intro l
  induction l with
  | nil =>
    intro acc h
    exact h
  | cons x ls ih =>
    intro acc h
    exact ih _ (bubR_chain comp hflip x acc h)

theorem foldBub_filter (comp : α → α → Int) (k : α)
    (hmix : ∀ x y, 0 < comp y x → comp x k = 0 → ¬ comp y k = 0) :
    ∀ (l acc : List α),
      (l.foldl (fun acc x => bubR comp x acc) acc).filter
          (fun e => comp e k == 0) =
        (l.filter (fun e => comp e k == 0)).reverse ++
          acc.filter (fun e => comp e k == 0) := by
  intro l
  induction l with
  | nil =>
    intro acc
    simp
  | cons x ls ih =>
    intro acc
    rw [List.foldl_cons, ih, bubR_filter comp k x (hmix x), List.filter_cons]
    by_cases hx : comp x k = 0
    · simp [hx]
    · simp [hx]

/-- C8: under a consistent total-order comparator, `dynarrSortInsert`
permutes the logical elements in place (metadata untouched) so that
every adjacent pair compares `≤ 0`, and it is stable: for every key,
the subsequence of elements comparing equal to that key is exactly the
same (same elements in the same order) as before the sort. -/
theorem sortInsert_spec (a : Dynarr α) (comp : α → α → Int) (hWF : WF a)
    (hc : TotalComp comp) :
    (dynarrSortInsert a comp).offs = a.offs ∧
    (dynarrSortInsert a comp).size = a.size ∧
    (dynarrSortInsert a comp).capa = a.capa ∧
    (logical (dynarrSortInsert a comp)).Perm (logical a) ∧
    List.Chain' (fun x y => comp x y ≤ 0) (logical (dynarrSortInsert a comp)) ∧
    (∀ k, (logical (dynarrSortInsert a comp)).filter (fun e => comp e k == 0) =
      (logical a).filter (fun e => comp e k == 0)) := by
  obtain ⟨ho, hs, hcap, hl⟩ := hWF
  have hflip : ∀ a b, 0 < comp a b → comp b a ≤ 0 := by
    intro p q hpq
    exact le_of_lt ((hc.1 p q).mp hpq)
  have hmix : ∀ k x y, 0 < comp y x → comp x k = 0 → ¬ comp y k = 0 := by
    intro k x y hyx hxk hyk
    have h2 : comp k x ≤ 0 := by
      by_contra hh
      have h3 : 0 < comp k x := by omega
      have := (hc.1 k x).mp h3
      omega
    have h4 : comp y x ≤ 0 := hc.2 y k x (le_of_eq hyk) h2
    omega
  have hperm : (insSortC comp (logical a)).Perm (logical a) := by
    unfold insSortC
    refine (List.reverse_perm _).trans ?_
    simpa using foldBub_perm comp (logical a) []
  have hSlen : (insSortC comp (logical a)).length = a.size.toNat := by
    rw [hperm.length_eq]
    exact bufSeg_length (by rw [hl]; omega)
  have hlog : logical (dynarrSortInsert a comp) = insSortC comp (logical a) := by
    show bufSeg (writeSeg a.buf a.offs.toNat (insSortC comp (logical a)))
      a.offs.toNat a.size.toNat = insSortC comp (logical a)
    rw [← hSlen]
    exact bufSeg_writeSeg (by rw [hl]; omega)
  refine ⟨rfl, rfl, rfl, ?_, ?_, ?_⟩
  · rw [hlog]
    exact hperm
  · rw [hlog]
    unfold insSortC
    rw [List.chain'_reverse]
    exact foldBub_chain comp hflip (logical a) [] (by simp)
  · intro k
    rw [hlog]
    unfold insSortC
    rw [List.filter_reverse, foldBub_filter comp k (hmix k) (logical a) []]
    simp

/-- Witness for C8 on a concrete unsorted Bool container with the
standard false-before-true comparator. -/
theorem sortInsert_spec_witness :
    (logical (dynarrSortInsert ({ capa := 4, elem := 1, offs := 1, size := 3, buf := [true, true, false, true] } : Dynarr Bool)
        (fun x y => (if x then 1 else 0) - (if y then 1 else 0)))).Perm
      (logical ({ capa := 4, elem := 1, offs := 1, size := 3, buf := [true, true, false, true] } : Dynarr Bool)) ∧
    List.Chain' (fun x y => ((if x then (1 : Int) else 0) - (if y then 1 else 0)) ≤ 0)
      (logical (dynarrSortInsert ({ capa := 4, elem := 1, offs := 1, size := 3, buf := [true, true, false, true] } : Dynarr Bool)
        (fun x y => (if x then 1 else 0) - (if y then 1 else 0)))) := by
  have h := sortInsert_spec ({ capa := 4, elem := 1, offs := 1, size := 3, buf := [true, true, false, true] } : Dynarr Bool)
    (fun x y => (if x then 1 else 0) - (if y then 1 else 0)) (by decide) (by decide)
  exact ⟨h.2.2.2.1, h.2.2.2.2.1⟩
